import Mathlib

/-!
# Verification of the sync-safe-file-names sanitizer and rename planner

Shallow embedding of `src/safe-name.ts`, `src/result.ts` and the plugin's
rename logic (`getFilesToRename`, `renameSingleFile`, `moveFile`,
`getSafePath`, `setAlias`).

Strings are modelled as `List Char`. `getSafeName` builds a JavaScript
regular expression `[^<base><additional>]` from its inputs, so the model
includes the JavaScript character-class semantics that the construction
inherits: unescaped hyphens between two class atoms form ranges, a
backslash escapes the following character, a dangling backslash escapes
the closing bracket and makes the constructor throw, and an out-of-order
range also throws.  A thrown exception is modelled as `none`.
-/

namespace SyncSafe

abbrev Str := List Char

def str (s : String) : Str := s.data

/-- The JavaScript whitespace set used by `String.prototype.trim` and by
the `\s` class escape: WhiteSpace plus LineTerminator code points. -/
def isJsWhitespace (c : Char) : Bool :=
  c.val == 0x09 || c.val == 0x0A || c.val == 0x0B || c.val == 0x0C ||
  c.val == 0x0D || c.val == 0x20 || c.val == 0xA0 || c.val == 0x1680 ||
  (0x2000 ≤ c.val && c.val ≤ 0x200A) || c.val == 0x2028 || c.val == 0x2029 ||
  c.val == 0x202F || c.val == 0x205F || c.val == 0x3000 || c.val == 0xFEFF

/-- JavaScript `String.prototype.trim`: drop leading and trailing
whitespace. -/
def trimJs (s : Str) : Str :=
  ((s.dropWhile isJsWhitespace).reverse.dropWhile isJsWhitespace).reverse

/-- A lexed class atom of the constructed character class: a plain source
character, or a backslash-escaped character. -/
inductive Tok : Type where
  | raw : Char → Tok
  | esc : Char → Tok
deriving DecidableEq

/-- A parsed member of the character class: a single code point, an
inclusive range, or one of the `\d \D \s \S \w \W` class escapes. -/
inductive ClassItem : Type where
  | single : Char → ClassItem
  | range : Char → Char → ClassItem
  | escD : ClassItem
  | escDn : ClassItem
  | escS : ClassItem
  | escSn : ClassItem
  | escW : ClassItem
  | escWn : ClassItem
deriving DecidableEq

/-- Meaning of a backslash escape inside a character class.  The class
escapes and control escapes are interpreted; any other escaped character
is an identity escape (the hex/control/octal escape forms are modelled as
identity escapes; no theorem below depends on them). -/
def escItem (c : Char) : ClassItem :=
  if c = 'd' then ClassItem.escD
  else if c = 'D' then ClassItem.escDn
  else if c = 's' then ClassItem.escS
  else if c = 'S' then ClassItem.escSn
  else if c = 'w' then ClassItem.escW
  else if c = 'W' then ClassItem.escWn
  else if c = 'b' then ClassItem.single (Char.ofNat 0x08)
  else if c = 'f' then ClassItem.single (Char.ofNat 0x0C)
  else if c = 'n' then ClassItem.single (Char.ofNat 0x0A)
  else if c = 'r' then ClassItem.single (Char.ofNat 0x0D)
  else if c = 't' then ClassItem.single (Char.ofNat 0x09)
  else if c = 'v' then ClassItem.single (Char.ofNat 0x0B)
  else ClassItem.single c

def tokAtom (t : Tok) : ClassItem :=
  match t with
  | Tok.raw c => ClassItem.single c
  | Tok.esc c => escItem c

/-- Lex the body of the class (the text between `[^` and the final `]`),
one character at a time; the boolean records a pending backslash.  A
backslash consumes the next character; a backslash at the very end would
escape the closing bracket, leaving the class unterminated, so the whole
construction fails. -/
def lexToks : Bool → List Char → Option (List Tok)
  | false, [] => some []
  | true, [] => none
  | false, c :: rest =>
    if c = '\\' then lexToks true rest
    else (lexToks false rest).map (fun ts => Tok.raw c :: ts)
  | true, c :: rest => (lexToks false rest).map (fun ts => Tok.esc c :: ts)

def lexBody (l : List Char) : Option (List Tok) := lexToks false l

/-- Parsing state while grouping atoms into ranges: nothing pending, one
atom pending (it may yet become the low end of a range), or an atom plus
an unescaped `-` pending. -/
inductive PState : Type where
  | s0 : PState
  | s1 : ClassItem → PState
  | s2 : ClassItem → PState
deriving DecidableEq

/-- The code point of a single-character class atom; `none` for ranges
and class escapes. -/
def isSingle : ClassItem → Option Char
  | ClassItem.single a => some a
  | ClassItem.range _ _ => none
  | ClassItem.escD => none
  | ClassItem.escDn => none
  | ClassItem.escS => none
  | ClassItem.escSn => none
  | ClassItem.escW => none
  | ClassItem.escWn => none

/-- Group the lexed atoms into class items, one token at a time.  An
unescaped `-` between two atoms attempts a range: two single code points
form a range (out of order is a syntax error); if either side is a class
escape, the three atoms are literal (Annex B behaviour).  A `-` that is
first, last, or right after a completed range is a literal. -/
def stepToks : PState → List Tok → Option (List ClassItem)
  | PState.s0, [] => some []
  | PState.s1 i, [] => some [i]
  | PState.s2 i, [] => some [i, ClassItem.single '-']
  | PState.s0, t :: rest => stepToks (PState.s1 (tokAtom t)) rest
  | PState.s1 i, t :: rest =>
    if t = Tok.raw '-' then stepToks (PState.s2 i) rest
    else (stepToks (PState.s1 (tokAtom t)) rest).map (fun l => i :: l)
  | PState.s2 i, t :: rest =>
    match isSingle i, isSingle (tokAtom t) with
    | some a, some b =>
      if a.val ≤ b.val then
        (stepToks PState.s0 rest).map (fun l => ClassItem.range a b :: l)
      else none
    | _, _ =>
      (stepToks PState.s0 rest).map
        (fun l => i :: ClassItem.single '-' :: tokAtom t :: l)

def groupItems (ts : List Tok) : Option (List ClassItem) :=
  stepToks PState.s0 ts

def parseClass (body : List Char) : Option (List ClassItem) :=
  (lexBody body).bind groupItems

def isDigitJs (c : Char) : Bool := '0'.val ≤ c.val && c.val ≤ '9'.val

def isWordJs (c : Char) : Bool :=
  ('a'.val ≤ c.val && c.val ≤ 'z'.val) || ('A'.val ≤ c.val && c.val ≤ 'Z'.val) ||
  isDigitJs c || c = '_'

def itemMatches (i : ClassItem) (c : Char) : Bool :=
  match i with
  | ClassItem.single a => c = a
  | ClassItem.range a b => a.val ≤ c.val && c.val ≤ b.val
  | ClassItem.escD => isDigitJs c
  | ClassItem.escDn => !isDigitJs c
  | ClassItem.escS => isJsWhitespace c
  | ClassItem.escSn => !isJsWhitespace c
  | ClassItem.escW => isWordJs c
  | ClassItem.escWn => !isWordJs c

def listMatches (items : List ClassItem) (c : Char) : Bool :=
  items.any (fun i => itemMatches i c)

/-! ## `src/safe-name.ts` -/

/-- `export const baseCharacters = "-a-zA-Z0-9._ "` -/
def baseCharacters : Str := str "-a-zA-Z0-9._ "

/-- `additionalCharacters.replace(/[[\]]/g, "")` -/
def stripBrackets (s : Str) : Str :=
  s.filter (fun c => !(c = '[' || c = ']'))

/-- `.replace(/[–—]/g, "-")`: en-dash and em-dash become the hyphen. -/
def normDash (c : Char) : Char := if c = '–' ∨ c = '—' then '-' else c

/-- `.replace(/’/g, "'")`: the typographic apostrophe becomes `'`. -/
def normApos (c : Char) : Char := if c = '’' then '\'' else c

/-- `.replace(/[“”]/g, "\"")`: curled quotes become the straight quote. -/
def normQuot (c : Char) : Char := if c = '“' ∨ c = '”' then '"' else c

/-- `getSafeName` from `src/safe-name.ts`.  Builds the regular expression
`[^${baseCharacters}${safeAdditionalCharacters}]` (modelled by
`parseClass`; `none` when the constructor throws), then applies the dash,
apostrophe and quote normalizations, replaces every character the class
matches — i.e. every character NOT in the parsed allow set — with a
hyphen, and trims. -/
def getSafeName (rawFileName : Str) (additionalCharacters : Str) : Option Str :=
  let safeAdditionalCharacters := stripBrackets additionalCharacters
  (parseClass (baseCharacters ++ safeAdditionalCharacters)).map (fun items =>
    trimJs ((((rawFileName.map normDash).map normApos).map normQuot).map
      (fun c => if listMatches items c then c else '-')))

example : getSafeName (str "This is a valid filename.md") (str "") =
    some (str "This is a valid filename.md") := by decide

example : getSafeName (str "This is not valid?.md") (str "") =
    some (str "This is not valid-.md") := by decide

example : getSafeName (str " There is whitespace.md") (str "") =
    some (str "There is whitespace.md") := by decide

example : getSafeName (str "Fancy (exotic) Ž?.md") (str "(Ž") =
    some (str "Fancy (exotic- Ž-.md") := by decide

/-! ## Spec-side sanitizer

A second definition written from the specification's words, used to
compare `getSafeName` against the spec's five-step description (a
refinement claim).  Here the allow-list is literal membership: the base
set `{A-Z, a-z, 0-9, hyphen, period, underscore, space}` united with the
additional-allowed characters with square brackets removed. -/

/-- The base allow set of the specification. -/
def specBaseAllowed (c : Char) : Bool :=
  ('A'.val ≤ c.val && c.val ≤ 'Z'.val) || ('a'.val ≤ c.val && c.val ≤ 'z'.val) ||
  ('0'.val ≤ c.val && c.val ≤ '9'.val) || c = '-' || c = '.' || c = '_' || c = ' '

/-- The spec's effective allow-list: base set united with the
additional-allowed set with square brackets removed, as literal character
membership. -/
def effectiveAllowed (additional : Str) (c : Char) : Bool :=
  specBaseAllowed c || decide (c ∈ stripBrackets additional)

/-- The sanitizer as the specification words it: normalize dashes, then
the typographic apostrophe, then typographic double quotes, then replace
every character outside the effective allow-list with one hyphen, then
trim. -/
def specSanitize (rawName : Str) (additional : Str) : Str :=
  trimJs ((((rawName.map normDash).map normApos).map normQuot).map
    (fun c => if effectiveAllowed additional c then c else '-'))

/-! ## `src/result.ts` -/

/-- `Result<data, error>`: a success carrying data, or a failure carrying
an error code plus optional `message` and optional `data` payload (the
only `data` payload the plugin ever attaches is `{ safeName }`, so the
failure's data slot holds that name). -/
inductive Result (α : Type) (ε : Type) : Type where
  | success : α → Result α ε
  | failure : ε → Option Str → Option Str → Result α ε
deriving DecidableEq

/-! ## The plugin (`main.ts`): settings, files, planner and rename logic -/

structure SyncSafeSettings : Type where
  renameAutomatically : Bool
  addOriginalAlias : Bool
  additionalCharacters : Str
deriving DecidableEq

def DEFAULT_SETTINGS : SyncSafeSettings :=
  SyncSafeSettings.mk true true
    (str "&+'(),$€ÄäÖöÜüßÀàÉéÈèÇçÂâÊêËëÏïÎîÔôŒœÆæ")

/-- A vault entry is either a regular file (`TFile`) or another abstract
file such as a folder. -/
inductive FileKind : Type where
  | tfile : FileKind
  | folder : FileKind
deriving DecidableEq

/-- A vault entry: kind, name (final path segment with extension),
basename (name without extension, meaningful for regular files), and the
parent's path (`none` models a missing parent). -/
structure AFile : Type where
  kind : FileKind
  name : Str
  basename : Str
  parentPath : Option Str
deriving DecidableEq

/-- Outcome of the external `fileManager.renameFile` request: resolves,
rejects with a JavaScript `Error` carrying a message, or rejects with a
non-`Error` value (which `moveFile` re-throws). -/
inductive MoveOutcome : Type where
  | ok : MoveOutcome
  | errorThrown : Str → MoveOutcome
  | nonErrorThrown : MoveOutcome
deriving DecidableEq

/-- Externally visible side effects of a rename attempt, in the order
they are issued: an alias appended to a file's front-matter `aliases`
list (`setAlias`), and a move request to the vault. -/
inductive Effect : Type where
  | aliasAdded : Str → Str → Effect
  | moveRequested : Str → List Str → Effect
deriving DecidableEq

/-- JavaScript `String.prototype.split("/")`. -/
def splitSlash : Str → List Str
  | [] => [[]]
  | c :: rest =>
    if c = '/' then [] :: splitSlash rest
    else
      match splitSlash rest with
      | [] => [[c]]
      | p :: ps => (c :: p) :: ps

/-- `getSafePath`: the parent path split on `/` with empty segments
dropped, with the safe name appended. -/
def getSafePath (parentPath : Option Str) (safeName : Str) : List Str :=
  (match parentPath with
   | none => []
   | some p => (splitSlash p).filter (fun part => part.length ≠ 0)) ++ [safeName]

/-- The declared error type of `moveFile` is `Result<boolean,
"alreadyExists">`: the only error code it can produce. -/
inductive MoveErrCode : Type where
  | alreadyExists : MoveErrCode
deriving DecidableEq

/-- `moveFile`: requests the underlying rename and catches exceptions;
every caught `Error` is turned into an `"alreadyExists"` failure carrying
the error's message, and a non-`Error` throw is re-thrown (`none`).  The
move request itself is issued in every case. -/
def moveFile (file : AFile) (newPath : List Str) (outcome : MoveOutcome) :
    Option (Result Bool MoveErrCode) × List Effect :=
  (match outcome with
   | MoveOutcome.ok => some (Result.success true)
   | MoveOutcome.errorThrown msg =>
     some (Result.failure MoveErrCode.alreadyExists (some msg) none)
   | MoveOutcome.nonErrorThrown => none,
   [Effect.moveRequested file.name newPath])

/-- `RenameResult`: `alreadySafe`, `previousName`, and the safe name in
the renamed case. -/
structure RenameData : Type where
  alreadySafe : Bool
  previousName : Str
  safeName : Option Str
deriving DecidableEq

inductive RenameErrCode : Type where
  | alreadyExists : RenameErrCode
  | unspecified : RenameErrCode
deriving DecidableEq

/-- `renameSingleFile`.  Computes the safe name (a thrown `RegExp` error
propagates with no side effect); an already-safe file is a no-op success;
otherwise the original basename is recorded as an alias when the file is
a regular file and `renameAutomatically` is set, then the move is
requested and its outcome classified.  The declared error type of
`moveFile` has only the `"alreadyExists"` code, so the source's
`"unspecified"` branch is unreachable here. -/
def renameSingleFile (file : AFile) (settings : SyncSafeSettings)
    (outcome : MoveOutcome) :
    Option (Result RenameData RenameErrCode) × List Effect :=
  match getSafeName file.name settings.additionalCharacters with
  | none => (none, [])
  | some safeName =>
    if file.name = safeName then
      (some (Result.success (RenameData.mk true file.name none)), [])
    else
      let newPath := getSafePath file.parentPath safeName
      let aliasEffects : List Effect :=
        if file.kind = FileKind.tfile ∧ settings.renameAutomatically = true then
          [Effect.aliasAdded file.name file.basename]
        else []
      match moveFile file newPath outcome with
      | (some (Result.success _), moveEffects) =>
        (some (Result.success (RenameData.mk false file.name (some safeName))),
         aliasEffects ++ moveEffects)
      | (some (Result.failure MoveErrCode.alreadyExists _ _), moveEffects) =>
        (some (Result.failure RenameErrCode.alreadyExists none (some safeName)),
         aliasEffects ++ moveEffects)
      | (none, moveEffects) => (none, aliasEffects ++ moveEffects)

/-- One entry of the rename plan. -/
structure PlanEntry : Type where
  isAlreadySafe : Bool
  safeName : Str
  file : AFile
deriving DecidableEq

/-- `getFilesToRename`: compute the safe name for every file and keep the
entries that are not already safe. -/
def getFilesToRename (allFiles : List AFile) (settings : SyncSafeSettings) :
    Option (List PlanEntry) :=
  (allFiles.mapM (fun file =>
      (getSafeName file.name settings.additionalCharacters).map
        (fun safeName => PlanEntry.mk (file.name == safeName) safeName file))).map
    (fun entries => entries.filter (fun e => !e.isAlreadySafe))

def okFile : AFile := AFile.mk FileKind.tfile (str "ok.md") (str "ok") none

def badFile : AFile :=
  AFile.mk FileKind.tfile (str "bad?.md") (str "bad?") (some (str "dir"))

example : getSafeName (str "bad?.md") DEFAULT_SETTINGS.additionalCharacters =
    some (str "bad-.md") := by decide

example : getFilesToRename [okFile, badFile] DEFAULT_SETTINGS =
    some [PlanEntry.mk false (str "bad-.md") badFile] := by decide

/-! ## Lemmas: trimming -/

theorem head_not_of_dropWhile {α : Type} {p : α → Bool} {l : List α} {c : α}
    (h : (l.dropWhile p).head? = some c) : p c = false := by
  have hx := List.head?_dropWhile_not p l
  rw [h] at hx
  exact hx

theorem dropWhile_twice {α : Type} {p : α → Bool} {l : List α} :
    (l.dropWhile p).dropWhile p = l.dropWhile p := by
  cases h : l.dropWhile p with
  | nil => simp
  | cons c rest =>
    have hc : p c = false := head_not_of_dropWhile (by rw [h]; rfl)
    simp [List.dropWhile_cons, hc]

theorem dropWhile_of_trimmed {α : Type} {p : α → Bool} {l : List α} :
    ((l.dropWhile p).reverse.dropWhile p).reverse.dropWhile p
      = ((l.dropWhile p).reverse.dropWhile p).reverse := by
  cases hv : ((l.dropWhile p).reverse.dropWhile p).reverse with
  | nil => simp
  | cons c rest =>
    have h1 : ((l.dropWhile p).reverse.dropWhile p).getLast? = some c := by
      rw [← List.head?_reverse, hv]
      rfl
    obtain ⟨t, ht⟩ := List.dropWhile_suffix (l := (l.dropWhile p).reverse) p
    have h2 : (l.dropWhile p).reverse.getLast? = some c := by
      rw [← ht, List.getLast?_append, h1]
      rfl
    have h3 : (l.dropWhile p).head? = some c := by
      rw [← List.getLast?_reverse, h2]
    have hc : p c = false := head_not_of_dropWhile h3
    rw [hv] at *
    simp [List.dropWhile_cons, hc]

theorem trimJs_idem (l : Str) : trimJs (trimJs l) = trimJs l := by
  have h1 : (trimJs l).dropWhile isJsWhitespace = trimJs l := dropWhile_of_trimmed
  unfold trimJs
  unfold trimJs at h1
  rw [h1, List.reverse_reverse, dropWhile_twice]

theorem mem_of_trimJs {l : Str} {c : Char} (h : c ∈ trimJs l) : c ∈ l := by
  unfold trimJs at h
  rw [List.mem_reverse] at h
  have h1 := (List.dropWhile_suffix (l := (l.dropWhile isJsWhitespace).reverse)
    isJsWhitespace).subset h
  rw [List.mem_reverse] at h1
  exact (List.dropWhile_suffix isJsWhitespace).subset h1

theorem trimJs_nil_of_white {l : Str} (h : ∀ c ∈ l, isJsWhitespace c = true) :
    trimJs l = [] := by
  unfold trimJs
  rw [List.dropWhile_eq_nil_iff.2 h]
  rfl

theorem map_eq_self_of {α : Type} {l : List α} {f : α → α}
    (h : ∀ c ∈ l, f c = c) : l.map f = l :=
  (List.map_congr_left h).trans (List.map_id l)

/-! ## Lemmas: character-class parsing -/

theorem lexBody_raw {l : Str} (h : ∀ c ∈ l, c ≠ '\\') :
    lexBody l = some (l.map Tok.raw) := by
  unfold lexBody
  induction l with
  | nil => rfl
  | cons c rest ih =>
    have hc : c ≠ '\\' := h c (by simp)
    simp [lexToks, hc, ih (fun x hx => h x (by simp [hx]))]

theorem lexBody_append {l1 l2 : Str} (h : ∀ c ∈ l1, c ≠ '\\') :
    lexBody (l1 ++ l2) = (lexBody l2).map (fun ts => l1.map Tok.raw ++ ts) := by
  unfold lexBody
  induction l1 with
  | nil =>
    cases hx : lexToks false l2 <;> simp [hx]
  | cons c rest ih =>
    have hc : c ≠ '\\' := h c (by simp)
    rw [List.cons_append]
    simp only [lexToks, hc, if_false, ite_false]
    rw [ih (fun x hx => h x (by simp [hx]))]
    cases hx : lexToks false l2 <;> simp [hx]

/-- The tokens of the base characters, as appended in front of the
additional characters. -/
def baseToks : List Tok := baseCharacters.map Tok.raw

/-- The class items produced from the base characters before the trailing
space atom is resolved. -/
def basePre : List ClassItem :=
  [ClassItem.single '-', ClassItem.range 'a' 'z', ClassItem.range 'A' 'Z',
   ClassItem.range '0' '9', ClassItem.single '.', ClassItem.single '_']

/-- The class items of the base characters alone. -/
def baseItems : List ClassItem := basePre ++ [ClassItem.single ' ']

theorem stepToks_base (ts : List Tok) :
    stepToks PState.s0 (baseToks ++ ts) =
      (stepToks (PState.s1 (ClassItem.single ' ')) ts).map
        (fun l => basePre ++ l) := by
  show ((((((stepToks (PState.s1 (ClassItem.single ' ')) ts).map
      (fun l => ClassItem.single '_' :: l)).map
      (fun l => ClassItem.single '.' :: l)).map
      (fun l => ClassItem.range '0' '9' :: l)).map
      (fun l => ClassItem.range 'A' 'Z' :: l)).map
      (fun l => ClassItem.range 'a' 'z' :: l)).map
      (fun l => ClassItem.single '-' :: l) =
    (stepToks (PState.s1 (ClassItem.single ' ')) ts).map (fun l => basePre ++ l)
  cases stepToks (PState.s1 (ClassItem.single ' ')) ts <;> rfl

theorem stepToks_nodash {ts : List Tok} (h : ∀ t ∈ ts, t ≠ Tok.raw '-') :
    stepToks PState.s0 ts = some (ts.map tokAtom)
      ∧ ∀ i, stepToks (PState.s1 i) ts = some (i :: ts.map tokAtom) := by
  induction ts with
  | nil => exact ⟨rfl, fun i => rfl⟩
  | cons t rest ih =>
    have ht : t ≠ Tok.raw '-' := h t (by simp)
    obtain ⟨ih0, ih1⟩ := ih (fun x hx => h x (by simp [hx]))
    refine ⟨?_, fun i => ?_⟩
    · simp [stepToks, ih1 (tokAtom t)]
    · simp [stepToks, ht, ih1 (tokAtom t)]

theorem stepToks_space {ts : List Tok} {r : List ClassItem}
    (h : stepToks (PState.s1 (ClassItem.single ' ')) ts = some r) :
    listMatches r ' ' = true := by
  cases ts with
  | nil =>
    cases h
    decide
  | cons t rest =>
    by_cases ht : t = Tok.raw '-'
    · subst ht
      rw [show stepToks (PState.s1 (ClassItem.single ' ')) (Tok.raw '-' :: rest)
            = stepToks (PState.s2 (ClassItem.single ' ')) rest from rfl] at h
      cases rest with
      | nil =>
        cases h
        decide
      | cons t3 rest3 =>
        rw [show stepToks (PState.s2 (ClassItem.single ' ')) (t3 :: rest3)
              = (match isSingle (ClassItem.single ' '), isSingle (tokAtom t3) with
                 | some a, some b =>
                   if a.val ≤ b.val then
                     (stepToks PState.s0 rest3).map
                       (fun l => ClassItem.range a b :: l)
                   else none
                 | _, _ =>
                   (stepToks PState.s0 rest3).map
                     (fun l => ClassItem.single ' ' :: ClassItem.single '-' ::
                       tokAtom t3 :: l)) from rfl] at h
        cases h3 : isSingle (tokAtom t3) with
        | some b =>
          rw [h3] at h
          by_cases hle : ' '.val ≤ b.val
          · rw [show (match isSingle (ClassItem.single ' '), some b with
                 | some a, some b =>
                   if a.val ≤ b.val then
                     (stepToks PState.s0 rest3).map
                       (fun l => ClassItem.range a b :: l)
                   else none
                 | _, _ =>
                   (stepToks PState.s0 rest3).map
                     (fun l => ClassItem.single ' ' :: ClassItem.single '-' ::
                       tokAtom t3 :: l))
                = if ' '.val ≤ b.val then
                    (stepToks PState.s0 rest3).map
                      (fun l => ClassItem.range ' ' b :: l)
                  else none from rfl, if_pos hle] at h
            cases hs : stepToks PState.s0 rest3 with
            | none => rw [hs] at h; cases h
            | some l =>
              rw [hs] at h
              cases h
              simp only [listMatches, List.any_cons, itemMatches, Bool.or_eq_true]
              exact Or.inl (by simpa using hle)
          · rw [show (match isSingle (ClassItem.single ' '), some b with
                 | some a, some b =>
                   if a.val ≤ b.val then
                     (stepToks PState.s0 rest3).map
                       (fun l => ClassItem.range a b :: l)
                   else none
                 | _, _ =>
                   (stepToks PState.s0 rest3).map
                     (fun l => ClassItem.single ' ' :: ClassItem.single '-' ::
                       tokAtom t3 :: l))
                = if ' '.val ≤ b.val then
                    (stepToks PState.s0 rest3).map
                      (fun l => ClassItem.range ' ' b :: l)
                  else none from rfl, if_neg hle] at h
            cases h
        | none =>
          rw [h3] at h
          rw [show (match isSingle (ClassItem.single ' '), (none : Option Char) with
                 | some a, some b =>
                   if a.val ≤ b.val then
                     (stepToks PState.s0 rest3).map
                       (fun l => ClassItem.range a b :: l)
                   else none
                 | _, _ =>
                   (stepToks PState.s0 rest3).map
                     (fun l => ClassItem.single ' ' :: ClassItem.single '-' ::
                       tokAtom t3 :: l))
                = (stepToks PState.s0 rest3).map
                    (fun l => ClassItem.single ' ' :: ClassItem.single '-' ::
                      tokAtom t3 :: l) from rfl] at h
          cases hs : stepToks PState.s0 rest3 with
          | none => rw [hs] at h; cases h
          | some l =>
            rw [hs] at h
            cases h
            simp [listMatches, itemMatches]
    · rw [show stepToks (PState.s1 (ClassItem.single ' ')) (t :: rest)
            = if t = Tok.raw '-' then stepToks (PState.s2 (ClassItem.single ' ')) rest
              else (stepToks (PState.s1 (tokAtom t)) rest).map
                (fun l => ClassItem.single ' ' :: l) from rfl, if_neg ht] at h
      cases hs : stepToks (PState.s1 (tokAtom t)) rest with
      | none => rw [hs] at h; cases h
      | some l =>
        rw [hs] at h
        cases h
        simp [listMatches, itemMatches]

theorem parseClass_anchor {sA : Str} {items : List ClassItem}
    (hp : parseClass (baseCharacters ++ sA) = some items) :
    listMatches items '-' = true ∧ listMatches items ' ' = true := by
  unfold parseClass at hp
  rw [lexBody_append (by decide)] at hp
  cases hx : lexBody sA with
  | none => rw [hx] at hp; cases hp
  | some ts =>
    rw [hx] at hp
    simp only [Option.map_some', Option.some_bind] at hp
    rw [show groupItems (baseCharacters.map Tok.raw ++ ts)
        = stepToks PState.s0 (baseToks ++ ts) from rfl] at hp
    rw [stepToks_base] at hp
    cases hr : stepToks (PState.s1 (ClassItem.single ' ')) ts with
    | none => rw [hr] at hp; cases hp
    | some r =>
      rw [hr] at hp
      cases hp
      constructor
      · simp only [listMatches, List.any_append, Bool.or_eq_true]
        exact Or.inl (by decide)
      · have hsp := stepToks_space hr
        simp only [listMatches, List.any_append, Bool.or_eq_true]
        exact Or.inr hsp

theorem parseClass_literal {sA : Str} (hb : ∀ c ∈ sA, c ≠ '\\')
    (hd : ∀ c ∈ sA, c ≠ '-') :
    parseClass (baseCharacters ++ sA)
      = some (baseItems ++ sA.map ClassItem.single) := by
  unfold parseClass
  rw [lexBody_append (by decide), lexBody_raw hb]
  rw [show ((some (sA.map Tok.raw)).map
        (fun ts => baseCharacters.map Tok.raw ++ ts)).bind groupItems
      = stepToks PState.s0 (baseToks ++ sA.map Tok.raw) from rfl]
  rw [stepToks_base]
  have hnodash : ∀ t ∈ sA.map Tok.raw, t ≠ Tok.raw '-' := by
    intro t ht e
    subst e
    obtain ⟨c, hc, hcc⟩ := List.mem_map.1 ht
    have hcd : c = '-' := by injection hcc
    exact hd c hc hcd
  rw [(stepToks_nodash hnodash).2 (ClassItem.single ' ')]
  simp [baseItems, List.map_map, tokAtom, Function.comp]

theorem listMatches_base_eq (c : Char) :
    listMatches baseItems c = specBaseAllowed c := by
  simp only [listMatches, baseItems, basePre, List.cons_append, List.nil_append,
    List.any_cons, List.any_nil, itemMatches, specBaseAllowed]
  rw [Bool.eq_iff_iff]
  simp only [Bool.or_eq_true, Bool.and_eq_true, decide_eq_true_eq, Bool.or_false]
  constructor
  · rintro (h | h | h | h | h | h | h) <;> tauto
  · rintro (h | h | h | h | h | h | h) <;> tauto

theorem listMatches_singles (l : Str) (c : Char) :
    (l.map ClassItem.single).any (fun i => itemMatches i c) = decide (c ∈ l) := by
  induction l with
  | nil => simp
  | cons a rest ih =>
    simp only [List.map_cons, List.any_cons, ih]
    rw [show itemMatches (ClassItem.single a) c = decide (c = a) from rfl]
    rw [Bool.eq_iff_iff]
    by_cases h : c = a <;> simp [h, List.mem_cons]

/-- Core refinement lemma: when the additional characters contain neither
a backslash nor a hyphen, every character of the constructed class is
literal and `getSafeName` computes exactly the spec's five-step
pipeline. -/
theorem getSafeName_spec_of_literal {rawName A : Str} (hb : '\\' ∉ A)
    (hd : '-' ∉ A) :
    getSafeName rawName A = some (specSanitize rawName A) := by
  have hb' : ∀ c ∈ stripBrackets A, c ≠ '\\' := by
    intro c hc e
    subst e
    exact hb (List.mem_of_mem_filter hc)
  have hd' : ∀ c ∈ stripBrackets A, c ≠ '-' := by
    intro c hc e
    subst e
    exact hd (List.mem_of_mem_filter hc)
  have hm : ∀ x, listMatches (baseItems ++ (stripBrackets A).map ClassItem.single) x
      = effectiveAllowed A x := by
    intro x
    simp only [listMatches, List.any_append]
    rw [show (baseItems.any (fun i => itemMatches i x)) = listMatches baseItems x
        from rfl]
    rw [listMatches_base_eq, listMatches_singles]
    rfl
  simp only [getSafeName]
  rw [parseClass_literal hb' hd']
  simp only [Option.map_some', Option.some.injEq, specSanitize]
  simp only [hm]

/-! ## Lemmas: idempotence and degenerate outputs -/

/-- A character that none of the three typographic substitutions
rewrites. -/
def notTypo (c : Char) : Prop :=
  c ≠ '–' ∧ c ≠ '—' ∧ c ≠ '’' ∧ c ≠ '“' ∧ c ≠ '”'

instance (c : Char) : Decidable (notTypo c) := by
  unfold notTypo
  infer_instance

theorem notTypo_after_normalize (x : Str) :
    ∀ d ∈ ((x.map normDash).map normApos).map normQuot, notTypo d := by
  intro d hd
  obtain ⟨b, hb, rfl⟩ := List.mem_map.1 hd
  obtain ⟨a2, ha2, rfl⟩ := List.mem_map.1 hb
  obtain ⟨a, ha, rfl⟩ := List.mem_map.1 ha2
  unfold normDash normApos normQuot
  by_cases h1 : a = '–' ∨ a = '—'
  · rw [if_pos h1]
    decide
  · rw [if_neg h1]
    by_cases h2 : a = '’'
    · rw [if_pos h2]
      decide
    · rw [if_neg h2]
      by_cases h3 : a = '“' ∨ a = '”'
      · rw [if_pos h3]
        decide
      · rw [if_neg h3]
        push_neg at h1 h3
        exact ⟨h1.1, h1.2, h2, h3.1, h3.2⟩

theorem getSafeName_output_chars {s A : Str} {items : List ClassItem}
    (hp : parseClass (baseCharacters ++ stripBrackets A) = some items) :
    ∀ c ∈ trimJs ((((s.map normDash).map normApos).map normQuot).map
        (fun c => if listMatches items c then c else '-')),
      notTypo c ∧ listMatches items c = true := by
  intro c hc
  have hc4 := mem_of_trimJs hc
  obtain ⟨d, hd, rfl⟩ := List.mem_map.1 hc4
  by_cases hm : listMatches items d = true
  · rw [if_pos hm]
    exact ⟨notTypo_after_normalize s d hd, hm⟩
  · rw [if_neg hm]
    exact ⟨by decide, (parseClass_anchor hp).1⟩

theorem sanitized_fix {items : List ClassItem} {t : Str}
    (hch : ∀ c ∈ t, notTypo c ∧ listMatches items c = true) :
    (((t.map normDash).map normApos).map normQuot).map
      (fun c => if listMatches items c then c else '-') = t := by
  have e1 : t.map normDash = t := map_eq_self_of (fun c hc => by
    obtain ⟨⟨n1, n2, n3, n4, n5⟩, -⟩ := hch c hc
    unfold normDash
    rw [if_neg (by simp [n1, n2])])
  rw [e1]
  have e2 : t.map normApos = t := map_eq_self_of (fun c hc => by
    obtain ⟨⟨n1, n2, n3, n4, n5⟩, -⟩ := hch c hc
    unfold normApos
    rw [if_neg n3])
  rw [e2]
  have e3 : t.map normQuot = t := map_eq_self_of (fun c hc => by
    obtain ⟨⟨n1, n2, n3, n4, n5⟩, -⟩ := hch c hc
    unfold normQuot
    rw [if_neg (by simp [n4, n5])])
  rw [e3]
  exact map_eq_self_of (fun c hc => by rw [if_pos (hch c hc).2])

theorem getSafeName_bind_idem (s A : Str) :
    (getSafeName s A).bind (fun t => getSafeName t A) = getSafeName s A := by
  cases hp : parseClass (baseCharacters ++ stripBrackets A) with
  | none => simp [getSafeName, hp]
  | some items =>
    simp only [getSafeName, hp, Option.map_some', Option.some_bind,
      Option.some.injEq]
    rw [sanitized_fix (getSafeName_output_chars hp)]
    exact trimJs_idem _

theorem getSafeName_all_spaces {rawName A : Str} {t : Str}
    (hsp : ∀ c ∈ rawName, c = ' ') (h : getSafeName rawName A = some t) :
    t = [] := by
  cases hp : parseClass (baseCharacters ++ stripBrackets A) with
  | none => simp [getSafeName, hp] at h
  | some items =>
    simp only [getSafeName, hp, Option.map_some', Option.some.injEq] at h
    subst h
    have hspace : listMatches items ' ' = true := (parseClass_anchor hp).2
    have e1 : rawName.map normDash = rawName := map_eq_self_of (fun c hc => by
      rw [hsp c hc]
      decide)
    rw [e1]
    have e2 : rawName.map normApos = rawName := map_eq_self_of (fun c hc => by
      rw [hsp c hc]
      decide)
    rw [e2]
    have e3 : rawName.map normQuot = rawName := map_eq_self_of (fun c hc => by
      rw [hsp c hc]
      decide)
    rw [e3]
    have e4 : rawName.map (fun c => if listMatches items c then c else '-')
        = rawName := map_eq_self_of (fun c hc => by
      rw [hsp c hc, if_pos hspace])
    rw [e4]
    exact trimJs_nil_of_white (fun c hc => by
      rw [hsp c hc]
      decide)

/-! ## Lemmas: planner and single-file rename -/

theorem getFilesToRename_filter (files : List AFile) (settings : SyncSafeSettings) :
    ∀ l : List PlanEntry,
      getFilesToRename files settings = some l →
      l = files.filterMap (fun f =>
        (getSafeName f.name settings.additionalCharacters).bind
          (fun sn => if f.name = sn then none
            else some (PlanEntry.mk false sn f))) := by
  induction files with
  | nil =>
    intro l h
    simp only [getFilesToRename, List.mapM_nil, Option.pure_def,
      Option.map_some', List.filter_nil, Option.some.injEq] at h
    subst h
    simp
  | cons f rest ih =>
    intro l h
    cases hgf : getSafeName f.name settings.additionalCharacters with
    | none =>
      exfalso
      have hnone : getFilesToRename (f :: rest) settings = none := by
        simp only [getFilesToRename, List.mapM_cons]
        rw [hgf]
        rfl
      rw [hnone] at h
      cases h
    | some sn =>
      cases hrest : rest.mapM (fun file =>
          (getSafeName file.name settings.additionalCharacters).map
            (fun safeName => PlanEntry.mk (file.name == safeName) safeName file)) with
      | none =>
        exfalso
        have hnone : getFilesToRename (f :: rest) settings = none := by
          simp only [getFilesToRename, List.mapM_cons]
          rw [hgf, hrest]
          rfl
        rw [hnone] at h
        cases h
      | some es =>
        have key : getFilesToRename (f :: rest) settings
            = some ((PlanEntry.mk (f.name == sn) sn f :: es).filter
                (fun e => !e.isAlreadySafe)) := by
          simp only [getFilesToRename, List.mapM_cons]
          rw [hgf, hrest]
          rfl
        rw [key] at h
        injection h with h2
        subst h2
        have hresteq : getFilesToRename rest settings
            = some (es.filter (fun e => !e.isAlreadySafe)) := by
          simp only [getFilesToRename]
          rw [hrest]
          rfl
        have ihr := ih _ hresteq
        by_cases heq : f.name = sn
        · have hbeq : (f.name == sn) = true := beq_iff_eq.2 heq
          rw [List.filter_cons_of_neg (by simp [hbeq])]
          rw [List.filterMap_cons_none
            (by rw [hgf, Option.some_bind, if_pos heq])]
          exact ihr
        · have hbeq : (f.name == sn) = false := beq_eq_false_iff_ne.2 heq
          rw [List.filter_cons_of_pos (by simp [hbeq])]
          rw [List.filterMap_cons_some
            (by rw [hgf, Option.some_bind, if_neg heq])]
          rw [hbeq, ihr]

theorem renameSingleFile_safe_noop (file : AFile) (settings : SyncSafeSettings)
    (outcome : MoveOutcome)
    (h : getSafeName file.name settings.additionalCharacters = some file.name) :
    renameSingleFile file settings outcome
      = (some (Result.success (RenameData.mk true file.name none)), []) := by
  unfold renameSingleFile
  rw [h]
  simp

theorem renameSingleFile_effects (file : AFile) (settings : SyncSafeSettings)
    (outcome : MoveOutcome) (sn : Str)
    (h : getSafeName file.name settings.additionalCharacters = some sn)
    (hne : sn ≠ file.name) :
    (renameSingleFile file settings outcome).2
      = (if file.kind = FileKind.tfile ∧ settings.renameAutomatically = true
          then [Effect.aliasAdded file.name file.basename] else [])
        ++ [Effect.moveRequested file.name (getSafePath file.parentPath sn)] := by
  have hne' : ¬ file.name = sn := fun e => hne e.symm
  unfold renameSingleFile moveFile
  rw [h]
  cases outcome <;> simp [hne']

theorem norm_maps_fix {t : Str} (h : ∀ c ∈ t, notTypo c) :
    ((t.map normDash).map normApos).map normQuot = t := by
  have e1 : t.map normDash = t := map_eq_self_of (fun c hc => by
    obtain ⟨n1, n2, n3, n4, n5⟩ := h c hc
    unfold normDash
    rw [if_neg (by simp [n1, n2])])
  rw [e1]
  have e2 : t.map normApos = t := map_eq_self_of (fun c hc => by
    obtain ⟨n1, n2, n3, n4, n5⟩ := h c hc
    unfold normApos
    rw [if_neg n3])
  rw [e2]
  exact map_eq_self_of (fun c hc => by
    obtain ⟨n1, n2, n3, n4, n5⟩ := h c hc
    unfold normQuot
    rw [if_neg (by simp [n4, n5])])

/-! ## The claims -/

/-- C1 (counterexample): for `additionalAllowed = "!-%"` the hyphen forms
the character-class range `!`–`%`, so `getSafeName` keeps the dollar sign
even though the spec's five-step pipeline, which treats the
additional-allowed set literally, replaces it with a hyphen. -/
theorem C1_counterexample :
    getSafeName (str "$") (str "!-%") ≠ some (specSanitize (str "$") (str "!-%")) := by
  decide

/-- C1 (amended): for every rawName, and every additionalAllowed that
contains neither a backslash nor a hyphen (so that the constructed
character class treats each of its characters literally), `getSafeName`
equals the spec's five-step pipeline: dash normalization, apostrophe
normalization, double-quote normalization, allow-list substitution with
one hyphen per disallowed character, and trim. -/
theorem C1_pipeline (rawName A : Str) (hb : '\\' ∉ A) (hd : '-' ∉ A) :
    getSafeName rawName A = some (specSanitize rawName A) :=
  getSafeName_spec_of_literal hb hd

/-- C1 (witness): the amended statement at the repository's own test
input `("Fancy (exotic) Ž?.md", "(Ž")`. -/
theorem C1_pipeline_witness :
    '\\' ∉ str "(Ž" ∧ '-' ∉ str "(Ž" ∧
      getSafeName (str "Fancy (exotic) Ž?.md") (str "(Ž")
        = some (specSanitize (str "Fancy (exotic) Ž?.md") (str "(Ž")) :=
  ⟨by decide, by decide,
   C1_pipeline (str "Fancy (exotic) Ž?.md") (str "(Ž") (by decide) (by decide)⟩

/-- C2 (counterexample): an additionalAllowed consisting of one backslash
escapes the closing bracket of the constructed class, the `RegExp`
constructor throws, and `getSafeName` does not return a string. -/
theorem C2_counterexample : getSafeName (str "x") (str "\\") = none := by
  decide

/-- C2 (amended): `getSafeName` returns a string for every rawName
whenever additionalAllowed contains neither a backslash nor a hyphen
(a sufficient condition for the character-class construction to
succeed). -/
theorem C2_total (rawName A : Str) (hb : '\\' ∉ A) (hd : '-' ∉ A) :
    ∃ t, getSafeName rawName A = some t :=
  ⟨specSanitize rawName A, getSafeName_spec_of_literal hb hd⟩

/-- C2 (witness): totality at `("x", "")`. -/
theorem C2_total_witness : ∃ t, getSafeName (str "x") (str "") = some t :=
  C2_total (str "x") (str "") (by decide) (by decide)

/-- C3 (counterexample): the en-dash is in the effective allow-list when
the caller allows it explicitly, and `"–"` has no surrounding whitespace,
yet `getSafeName "–" "–"` rewrites it to `"-"` — the dash normalization
runs before, and regardless of, the allow-list. -/
theorem C3_counterexample :
    (∀ c ∈ str "–", effectiveAllowed (str "–") c = true)
      ∧ trimJs (str "–") = str "–"
      ∧ getSafeName (str "–") (str "–") ≠ some (str "–") := by
  refine ⟨by decide, by decide, by decide⟩

/-- C3 (amended): stability for already-safe names holds when, in
addition, additionalAllowed contains neither backslash nor hyphen and the
name contains none of the five typographic characters that the
normalization steps rewrite even when they are allow-listed. -/
theorem C3_stability (s A : Str) (hb : '\\' ∉ A) (hd : '-' ∉ A)
    (hall : ∀ c ∈ s, effectiveAllowed A c = true)
    (htypo : ∀ c ∈ s, notTypo c) (htrim : trimJs s = s) :
    getSafeName s A = some s := by
  rw [getSafeName_spec_of_literal hb hd]
  unfold specSanitize
  rw [norm_maps_fix htypo]
  have e4 : s.map (fun c => if effectiveAllowed A c then c else '-') = s :=
    map_eq_self_of (fun c hc => by rw [if_pos (hall c hc)])
  rw [e4, htrim]

/-- C3 (witness): the amended statement at the repository's own test
input `"This is a valid filename.md"` with no additional characters. -/
theorem C3_stability_witness :
    getSafeName (str "This is a valid filename.md") (str "")
      = some (str "This is a valid filename.md") :=
  C3_stability (str "This is a valid filename.md") (str "") (by decide)
    (by decide) (by decide) (by decide) (by decide)

/-- C4: a move failure that is not a destination collision — the
underlying rename rejects with `Error("permission denied")` — is still
classified as `alreadyExists` and surfaced with the attempted safe name;
the `unspecified` branch of `renameSingleFile` is unreachable because
`moveFile` turns every caught `Error` into the `alreadyExists` code. -/
theorem C4_error_collapsed :
    renameSingleFile badFile DEFAULT_SETTINGS
        (MoveOutcome.errorThrown (str "permission denied"))
      = (some (Result.failure RenameErrCode.alreadyExists none
          (some (str "bad-.md"))),
         [Effect.aliasAdded (str "bad?.md") (str "bad?"),
          Effect.moveRequested (str "bad?.md") [str "dir", str "bad-.md"]]) := by
  decide

/-- C5: sanitization is idempotent — for every string and every
additional-allowed string, re-sanitizing the output reproduces it (stated
through `bind` so that a thrown class construction on the first call is
the same thrown construction on the second). -/
theorem C5_idempotent (s A : Str) :
    (getSafeName s A).bind (fun t => getSafeName t A) = getSafeName s A :=
  getSafeName_bind_idem s A

/-- C6 (counterexample): with `additionalAllowed = "!-+"` the hyphen
forms the range `!`–`+`, so the output of `getSafeName "#"` keeps `#`, a
character outside the effective allow-list (base set united with the
literal characters `!`, `-`, `+`). -/
theorem C6_counterexample :
    getSafeName (str "#") (str "!-+") = some (str "#")
      ∧ effectiveAllowed (str "!-+") '#' = false := by
  refine ⟨by decide, by decide⟩

/-- C6 (amended): when additionalAllowed contains neither backslash nor
hyphen, every character of the output is in the effective allow-list and
the output has no leading or trailing whitespace (it is a fixed point of
trimming). -/
theorem C6_safety (rawName A t : Str) (hb : '\\' ∉ A) (hd : '-' ∉ A)
    (h : getSafeName rawName A = some t) :
    (∀ c ∈ t, effectiveAllowed A c = true) ∧ trimJs t = t := by
  rw [getSafeName_spec_of_literal hb hd] at h
  injection h with h2
  subst h2
  constructor
  · intro c hc
    have hc4 := mem_of_trimJs hc
    obtain ⟨d, hd4, rfl⟩ := List.mem_map.1 hc4
    by_cases hm : effectiveAllowed A d = true
    · rw [if_pos hm]
      exact hm
    · rw [if_neg hm]
      unfold effectiveAllowed
      rw [show specBaseAllowed '-' = true from rfl]
      rfl
  · exact trimJs_idem _

/-- C6 (witness): the amended statement at
`("Fancy (exotic) Ž?.md", "(Ž")`, whose output is
`"Fancy (exotic- Ž-.md"`. -/
theorem C6_safety_witness :
    (∀ c ∈ str "Fancy (exotic- Ž-.md",
        effectiveAllowed (str "(Ž") c = true)
      ∧ trimJs (str "Fancy (exotic- Ž-.md") = str "Fancy (exotic- Ž-.md" :=
  C6_safety (str "Fancy (exotic) Ž?.md") (str "(Ž")
    (str "Fancy (exotic- Ž-.md") (by decide) (by decide) (by decide)

/-- C7: for a file that is not already safe, the alias write happens if
and only if the file is a regular file and `renameAutomatically` is set —
whatever the value of `addOriginalAlias` — and it precedes the move
request; an already-safe file produces no side effect at all. -/
theorem C7_alias_gating (file : AFile) (settings : SyncSafeSettings)
    (outcome : MoveOutcome) (sn : Str)
    (h : getSafeName file.name settings.additionalCharacters = some sn) :
    (sn ≠ file.name →
      (renameSingleFile file settings outcome).2
        = (if file.kind = FileKind.tfile ∧ settings.renameAutomatically = true
            then [Effect.aliasAdded file.name file.basename] else [])
          ++ [Effect.moveRequested file.name (getSafePath file.parentPath sn)])
    ∧ (sn = file.name → (renameSingleFile file settings outcome).2 = []) := by
  constructor
  · intro hne
    exact renameSingleFile_effects file settings outcome sn h hne
  · intro heq
    subst heq
    rw [renameSingleFile_safe_noop file settings outcome h]

/-- C7 (witness): renaming `dir/bad?.md` under the default settings
(`renameAutomatically = true`) records the alias `bad?` before requesting
the move. -/
theorem C7_alias_gating_witness :
    getSafeName badFile.name DEFAULT_SETTINGS.additionalCharacters
        = some (str "bad-.md")
      ∧ (renameSingleFile badFile DEFAULT_SETTINGS MoveOutcome.ok).2
        = [Effect.aliasAdded (str "bad?.md") (str "bad?"),
           Effect.moveRequested (str "bad?.md") [str "dir", str "bad-.md"]] := by
  constructor
  · decide
  · have h := (C7_alias_gating badFile DEFAULT_SETTINGS MoveOutcome.ok
      (str "bad-.md") (by decide)).1 (by decide)
    rw [h]
    decide

/-- C8: the planner keeps exactly the files whose name differs from its
safe name, pairing each with that safe name, in input order; and on the
two-file set `{ok.md, bad?.md}` it returns exactly the entry for
`bad?.md` with safe name `bad-.md`. -/
theorem C8_planner :
    (∀ (files : List AFile) (settings : SyncSafeSettings) (l : List PlanEntry),
      getFilesToRename files settings = some l →
      l = files.filterMap (fun f =>
        (getSafeName f.name settings.additionalCharacters).bind
          (fun sn => if f.name = sn then none
            else some (PlanEntry.mk false sn f))))
    ∧ getFilesToRename [okFile, badFile] DEFAULT_SETTINGS
        = some [PlanEntry.mk false (str "bad-.md") badFile] :=
  ⟨fun files settings => getFilesToRename_filter files settings, by decide⟩

/-- C8 (witness): the filtering equation instantiated on the two-file
demo set. -/
theorem C8_planner_witness :
    [PlanEntry.mk false (str "bad-.md") badFile]
      = [okFile, badFile].filterMap (fun f =>
          (getSafeName f.name DEFAULT_SETTINGS.additionalCharacters).bind
            (fun sn => if f.name = sn then none
              else some (PlanEntry.mk false sn f))) :=
  C8_planner.1 [okFile, badFile] DEFAULT_SETTINGS
    [PlanEntry.mk false (str "bad-.md") badFile] (by decide)

/-- C9: a file whose name is already its safe name yields a no-op
success with `alreadySafe = true`, with no move request and no alias
write. -/
theorem C9_already_safe (file : AFile) (settings : SyncSafeSettings)
    (outcome : MoveOutcome)
    (h : getSafeName file.name settings.additionalCharacters = some file.name) :
    renameSingleFile file settings outcome
      = (some (Result.success (RenameData.mk true file.name none)), []) :=
  renameSingleFile_safe_noop file settings outcome h

/-- C9 (witness): `ok.md` under the default settings. -/
theorem C9_already_safe_witness :
    renameSingleFile okFile DEFAULT_SETTINGS MoveOutcome.ok
      = (some (Result.success (RenameData.mk true (str "ok.md") none)), []) :=
  C9_already_safe okFile DEFAULT_SETTINGS MoveOutcome.ok (by decide)

/-- C10: a non-empty name consisting only of spaces sanitizes to the
empty string (the spaces are allow-listed, then trimmed away), so the
planner's computed target path for such a file ends in an empty
segment. -/
theorem C10_empty_target (rawName A : Str) (pp : Option Str) (t : Str)
    (_hne : rawName ≠ []) (hsp : ∀ c ∈ rawName, c = ' ')
    (h : getSafeName rawName A = some t) :
    t = [] ∧ (getSafePath pp t).getLast? = some [] := by
  have ht := getSafeName_all_spaces hsp h
  subst ht
  refine ⟨rfl, ?_⟩
  unfold getSafePath
  exact List.getLast?_concat _

/-- C10 (witness): the two-space name under an empty additional-allowed
set, in the folder `a/b`. -/
theorem C10_empty_target_witness :
    ([] : Str) = []
      ∧ (getSafePath (some (str "a/b")) []).getLast? = some [] :=
  C10_empty_target (str "  ") (str "") (some (str "a/b")) []
    (by decide) (by decide) (by decide)

end SyncSafe
